import Mathlib

/-!
# Verification of `miele-outlet-scrape.py`

A shallow embedding of the single source file `src/miele-outlet-scrape.py`.

* The two regular expressions of `parse_pdf` (the product-row pattern of
  lines 53-61 and the update pattern of line 63) are embedded as executable
  matchers over `List Char`, faithful to Python `re.match` semantics:
  start-anchored, with greedy quantifiers backtracking from the longest
  candidate and the lazy `.+?` of the description group growing from the
  shortest.  The product pattern ends in `$` (end of line, or just before a
  final newline); the update pattern has no end anchor, so it is a prefix
  match.
* The normalisation of a raw match (lines 79-105) is embedded in
  `normalizeRow`.  Currency amounts are modelled as exact rationals
  (`float` of the comma-stripped decimal literal); Python's `round(x, 2)`
  is modelled as round-half-to-even on the exact value (`pyRound2`);
  `ZeroDivisionError` (division by a zero `rrp`) is modelled by returning
  `none`.
* `check_product_status` (lines 33-45) is embedded over an abstract
  transport `fetch : String → HttpOutcome`.
* `filter_products` (lines 123-152) is embedded with explicit state
  passing: Python mutates the `products` dict in place and aliases its
  entries into the returned dict, so the embedding returns the final state
  of the input (`final`), the returned filtered dict (`filtered`) and the
  list of URLs passed to `check_product_status` (`checked`).  The compiled
  regex `fr".*({filter}).*"` applied with `re.IGNORECASE` is abstracted as
  a predicate `pmatch : String → Bool` (the regex engine, like HTTP
  transport, is an external collaborator).
-/

namespace MieleScrape

/-! ## Character classes (ASCII scope of Python `re` and `str` methods) -/

/-- Python `\s` / `str.split()` / `str.strip()` whitespace (ASCII range). -/
def pySpace (c : Char) : Bool :=
  c = ' ' || c = '\t' || c = '\n' || c = '\r' || c = '\x0b' || c = '\x0c'

/-- Python `\d` (ASCII range). -/
def reDigit (c : Char) : Bool := '0' ≤ c && c ≤ '9'

/-- The class `[A-Z0-9]` used by the grade groups. -/
def upperAlnum (c : Char) : Bool := ('A' ≤ c && c ≤ 'Z') || reDigit c

/-- The class `[\d,]` used by the amount groups. -/
def digitComma (c : Char) : Bool := reDigit c || c = ','

/-- Python `\w` (ASCII range), for the `\b` boundary in `re.split`. -/
def isWordChar (c : Char) : Bool :=
  ('a' ≤ c && c ≤ 'z') || ('A' ≤ c && c ≤ 'Z') || reDigit c || c = '_'

/-- `.` in a non-DOTALL pattern: any character but a newline. -/
def reDot (c : Char) : Bool := c ≠ '\n'

/-! ## Small matching primitives -/

/-- Match a literal sequence of characters, returning the rest. -/
def stripPre : List Char → List Char → Option (List Char)
  | [], l => some l
  | _, [] => none
  | p :: ps, c :: cs => if c = p then stripPre ps cs else none

/-- Match exactly `n` characters of class `p` (an exact quantifier such as
`\d{2}`), returning them and the rest. -/
def readExact (p : Char → Bool) : Nat → List Char → Option (List Char × List Char)
  | 0, l => some ([], l)
  | _ + 1, [] => none
  | n + 1, c :: cs =>
    if p c then (readExact p n cs).map (fun r => (c :: r.1, r.2)) else none

/-- Match one literal character. -/
def expectChar (a : Char) : List Char → Option (List Char)
  | [] => none
  | c :: cs => if c = a then some cs else none

/-- The `$` anchor outside MULTILINE mode: end of input, or a sole final
newline. -/
def dollarEnd (l : List Char) : Bool := l = [] || l = ['\n']

/-! ## The product-row pattern (`parse_pdf`, lines 53-61)

```
^(?P<id>\d+)\s+(?P<description>.+?)\s+(?P<grade>Outlet [A-Z0-9]+ Stock)\s+
£(?P<rrp>[\d,]+\.\d{2})\s+£(?P<price>[\d,]+\.\d{2})
(?:\s+£(?P<discounted_price>[\d,]+\.\d{2}))?$
```
-/

/-- One raw product-row match: the six captured groups, as captured (the
grade still carries its `Outlet … Stock` wrapper, amounts are still
strings). -/
structure RawRow where
  id : String
  description : String
  grade : String
  rrp : String
  price : String
  discounted_price : Option String
deriving DecidableEq

/-- `[\d,]+\.\d{2}`: a maximal nonempty run of digits/commas, a dot, two
digits.  (`[\d,]+` is greedy but deterministic here: shrinking the run
leaves a digit or comma where `\.` must match.) -/
def readAmount (l : List Char) : Option (List Char × List Char) :=
  let a := l.takeWhile digitComma
  let r := l.dropWhile digitComma
  if a = [] then none else
  match r with
  | '.' :: r2 =>
    match readExact reDigit 2 r2 with
    | some (d, r3) => some (a ++ '.' :: d, r3)
    | none => none
  | _ => none

/-- The optional discounted-price group with its closing anchor:
`\s+£<amount>$`, the (greedy, so tried-first) present branch of
`(?:\s+£(?P<discounted_price>[\d,]+\.\d{2}))?$`. -/
def discTry (l : List Char) : Option (List Char) :=
  let w3 := l.takeWhile pySpace
  let r10 := l.dropWhile pySpace
  if w3 = [] then none else
  (expectChar '£' r10).bind fun r11 =>
  (readAmount r11).bind fun rd =>
  if dollarEnd rd.2 then some rd.1 else none

/-- The rigid tail of the product pattern, from the `Outlet` keyword on:
`(Outlet [A-Z0-9]+ Stock)\s+£rrp\s+£price(?:\s+£disc)?$`.  Every
quantifier in it is deterministic except the optional discounted group,
which (being greedy) is tried present first — `discTry`, then on its
failure the `$` alone.  Returns the grade label and the three amount
strings. -/
def matchTail (l : List Char) : Option (String × String × String × Option String) :=
  (stripPre "Outlet ".data l).bind fun r1 =>
  let g := r1.takeWhile upperAlnum
  let r2 := r1.dropWhile upperAlnum
  if g = [] then none else
  (stripPre " Stock".data r2).bind fun r3 =>
  let w1 := r3.takeWhile pySpace
  let r4 := r3.dropWhile pySpace
  if w1 = [] then none else
  (expectChar '£' r4).bind fun r5 =>
  (readAmount r5).bind fun ra =>
  let w2 := ra.2.takeWhile pySpace
  let r7 := ra.2.dropWhile pySpace
  if w2 = [] then none else
  (expectChar '£' r7).bind fun r8 =>
  (readAmount r8).bind fun rp =>
  let gradeLabel := ("Outlet ".data ++ g ++ " Stock".data).asString
  match discTry rp.2 with
  | some d => some (gradeLabel, ra.1.asString, rp.1.asString, some d.asString)
  | none =>
    if dollarEnd rp.2 then some (gradeLabel, ra.1.asString, rp.1.asString, none)
    else none

/-- Attempt `\s+` followed by the rigid tail at the current position (the
text after a candidate end of the description). -/
def descTry (l : List Char) : Option (String × String × String × Option String) :=
  let w := l.takeWhile pySpace
  let r := l.dropWhile pySpace
  if w = [] then none else matchTail r

/-- The lazy description group `.+?`: `acc` holds the (reversed, nonempty)
description so far; before every extension the engine first tries to match
the rest of the pattern at the current position. -/
def descLoop (acc : List Char) :
    List Char → Option (String × String × String × String × Option String)
  | [] => none
  | c :: rest =>
    match descTry (c :: rest) with
    | some (g, rrp, price, d) => some (acc.reverse.asString, g, rrp, price, d)
    | none => if reDot c then descLoop (c :: acc) rest else none

/-- Backtracking of the first, greedy `\s+` (after `\d+`): `w` is its
maximal run, `r` the text after the run.  `k+1` spaces are consumed first;
on failure one space is given back to the (lazy) description group.  The
description's first character comes from what remains and must match `.`
(`reDot`). -/
def tryFromK (w r : List Char) :
    Nat → Option (String × String × String × String × Option String)
  | 0 => none
  | k + 1 =>
    match
      (match w.drop (k + 1) ++ r with
       | [] => none
       | c :: rest => if reDot c then descLoop [c] rest else none) with
    | some res => some res
    | none => tryFromK w r k

/-- `re.match` of the product-row pattern: `^` anchors at the start, `\d+`
is deterministic (whitespace follows), then the `\s+`/`.+?` interplay of
`tryFromK`/`descLoop`, then the rigid tail ending in `$`. -/
def productMatch (l : List Char) : Option RawRow :=
  let idc := l.takeWhile reDigit
  let r := l.dropWhile reDigit
  if idc = [] then none else
  let w := r.takeWhile pySpace
  let r2 := r.dropWhile pySpace
  if w = [] then none else
  match tryFromK w r2 w.length with
  | some (desc, g, rrp, price, d) => some ⟨idc.asString, desc, g, rrp, price, d⟩
  | none => none

/-! ## The update pattern (`parse_pdf`, line 63)

```
Miele Outlet (?P<grade>[A-Z0-9]+) Grade Pricelist - Updated \d{2}/\d{2}/\d{4}
```
applied with `re.match`: anchored at the start only — no `$`, so trailing
text is accepted. -/

/-- `re.match` of the update pattern; returns the grade and date captures.
Every quantifier is deterministic (`[A-Z0-9]+` is followed by a space,
which is outside the class). -/
def updateMatch (l : List Char) : Option (String × String) :=
  (stripPre "Miele Outlet ".data l).bind fun r1 =>
  let g := r1.takeWhile upperAlnum
  let r2 := r1.dropWhile upperAlnum
  if g = [] then none else
  (stripPre " Grade Pricelist - Updated ".data r2).bind fun r3 =>
  (readExact reDigit 2 r3).bind fun d1 =>
  (expectChar '/' d1.2).bind fun r4 =>
  (readExact reDigit 2 r4).bind fun d2 =>
  (expectChar '/' d2.2).bind fun r5 =>
  (readExact reDigit 4 r5).map fun d3 =>
  (g.asString, (d1.1 ++ '/' :: d2.1 ++ '/' :: d3.1).asString)

/-! ## Record normalisation (`parse_pdf`, lines 79-105) -/

/-- Value of a decimal digit string. -/
def digitsVal : List Char → Nat :=
  List.foldl (fun n c => 10 * n + (c.toNat - '0'.toNat)) 0

/-- The digit-level part of `float(s.replace(",", ""))`, restricted to the
unsigned decimal literals the row grammar can produce (optional integer
digits, a dot, fraction digits; or plain digits): strip the commas and
return the integer part's value, the fraction part's value, and the number
of fraction digits.  `none` models Python's `ValueError` on anything
else. -/
def parseAmountN (l : List Char) : Option (Nat × Nat × Nat) :=
  let t := l.filter (fun c => c ≠ ',')
  let ip := t.takeWhile reDigit
  let rest := t.dropWhile reDigit
  match rest with
  | [] => if ip = [] then none else some (digitsVal ip, 0, 0)
  | '.' :: fp =>
    if fp.all reDigit && !(ip = [] && fp = []) then
      some (digitsVal ip, digitsVal fp, fp.length)
    else none
  | _ => none

/-- `float(s.replace(",", ""))` as an exact rational: the decimal value
`ip.fp` denoted by the literal. -/
def parseAmount (l : List Char) : Option ℚ :=
  (parseAmountN l).map fun t => (t.1 : ℚ) + (t.2.1 : ℚ) / 10 ^ t.2.2

/-- `\b` after `GB`/`EU1`: the next character is not a word character (or
there is none). -/
def nonWordStart : List Char → Bool
  | [] => true
  | c :: _ => !isWordChar c

/-- `re.split(r"(GB|EU1)\b", s)`: scan left to right; at each position try
`GB` and then `EU1`, each with a trailing word boundary; emit the text
between matches and the separators themselves (the pattern has a capture
group).  No separator starts with `B`, `U` or `1`, so after a failed
boundary the scan may skip past the literal it just read. -/
def splitGo (cur : List Char) : List Char → List String
  | [] => [cur.reverse.asString]
  | 'G' :: 'B' :: rest =>
    if nonWordStart rest then cur.reverse.asString :: "GB" :: splitGo [] rest
    else splitGo ('B' :: 'G' :: cur) rest
  | 'E' :: 'U' :: '1' :: rest =>
    if nonWordStart rest then cur.reverse.asString :: "EU1" :: splitGo [] rest
    else splitGo ('1' :: 'U' :: 'E' :: cur) rest
  | c :: rest => splitGo (c :: cur) rest

/-- Python `str.strip()` (whitespace from both ends). -/
def pyStrip (s : String) : String :=
  ((s.data.dropWhile pySpace).reverse.dropWhile pySpace).reverse.asString

/-- Python `str.split()` with no argument: split on whitespace runs,
discarding empty pieces. -/
def wsGo (cur : List Char) : List Char → List String
  | [] => if cur = [] then [] else [cur.reverse.asString]
  | c :: r =>
    if pySpace c then
      if cur = [] then wsGo [] r else cur.reverse.asString :: wsGo [] r
    else wsGo (c :: cur) r

/-- `s.split()` on a string. -/
def pySplitWs (s : String) : List String := wsGo [] s.data

/-- Round a rational to the nearest integer, ties to even — the rounding
of Python's built-in `round` (on the exact value; `float` representation
noise is out of scope of this model). -/
def rne (q : ℚ) : ℤ :=
  if q - ⌊q⌋ < 1 / 2 then ⌊q⌋
  else if 1 / 2 < q - ⌊q⌋ then ⌊q⌋ + 1
  else if ⌊q⌋ % 2 = 0 then ⌊q⌋ else ⌊q⌋ + 1

/-- Python `round(x, 2)` on the exact value. -/
def pyRound2 (x : ℚ) : ℚ := (rne (x * 100) : ℚ) / 100

/-- Round-half-up to two decimals: what the spec's words
"round_half_up(…, 2 decimal places)" describe.  Used only as the
spec-side formula to compare against the code. -/
def roundHalfUp2 (x : ℚ) : ℚ := (⌊x * 100 + 1 / 2⌋ : ℚ) / 100

/-- One normalised stock unit (the per-unit dict built by `parse_pdf`
after lines 79-105; `updated` models the `'updated'` key added later by
`filter_products`, absent — `none` — until then). -/
structure ProductUnit where
  description : String
  product_name : String
  grade : String
  rrp : ℚ
  price : ℚ
  /-- `0` is the sentinel stored when the discounted group is absent. -/
  discounted_price : ℚ
  discount_rate : ℚ
  updated : Option String
deriving DecidableEq

/-- Lines 79-105 of `parse_pdf`: normalise one raw match into
`(id, url, unit)`.  `none` models an uncaught Python exception:
`ValueError` from `float` on a malformed amount, or `ZeroDivisionError`
when `rrp` is zero (there is no zero guard in the source).  The two
indexings `split_description[2]` and `grade.split()[1]` are modelled with
`getD`: on grammar-produced input both lists are long enough (`re.split`
with one capture group returns an odd number of pieces, and the grade
label always splits into three words), so the defaults are never taken. -/
def normalizeRow (raw : RawRow) : Option (String × String × ProductUnit) :=
  let parts := (splitGo [] raw.description.data).map pyStrip
  let desc := parts.getD 0 ""
  let name := if parts.length > 1 then parts.getD 2 "" else ""
  let grade := (pySplitWs raw.grade).getD 1 ""
  let url := "https://www.miele.co.uk/product/" ++ raw.id
  (parseAmount raw.rrp.data).bind fun rrp =>
  (parseAmount raw.price.data).bind fun price =>
  match raw.discounted_price with
  | some ds =>
    (parseAmount ds.data).bind fun dp =>
    if rrp = 0 then none else
    some (raw.id, url,
      ⟨desc, name, grade, rrp, price, dp, pyRound2 ((rrp - dp) / rrp * 100), none⟩)
  | none =>
    if rrp = 0 then none else
    some (raw.id, url,
      ⟨desc, name, grade, rrp, price, 0, pyRound2 ((rrp - price) / rrp * 100), none⟩)

/-- Match one line against the product pattern and normalise it: the
per-line work of `parse_pdf`'s product branch. -/
def parse_line (line : String) : Option (String × String × ProductUnit) :=
  (productMatch line.data).bind normalizeRow

/-- Modelled from the spec: the discount-rate formula as the spec words it
— "round_half_up((rrp − effective_price) / rrp × 100)" with
"effective_price = discounted price if present and nonzero, else price".
Refinement target for comparison with the code's computation. -/
def specDiscountRate (rrp price : ℚ) (disc : Option ℚ) : ℚ :=
  let eff := match disc with
    | some d => if d ≠ 0 then d else price
    | none => price
  roundHalfUp2 ((rrp - eff) / rrp * 100)

/-! ## `check_product_status` (lines 33-45) -/

/-- Outcome of `requests.get(url)`: either a response carrying a status
code (no exception — `requests` does not raise for non-2xx statuses), or a
`requests.RequestException` (timeout, DNS failure, connection reset, …). -/
inductive HttpOutcome where
  | response (status_code : Nat)
  | transportError
deriving DecidableEq

/-- Lines 33-45, over an abstract transport `fetch`. -/
def check_product_status (fetch : String → HttpOutcome) (url : String) : String :=
  match fetch url with
  | .response code => if code = 404 then "Inactive" else "Active"
  | .transportError => "Error"

/-! ## `filter_products` (lines 123-152) -/

/-- One entry of the `matches` dict built by `parse_pdf` (minus the
per-unit dicts' own fields). -/
structure Product where
  url : String
  status : String
  available_units : List ProductUnit
deriving DecidableEq

/-- Line 138: `available_unit['updated'] = update_info.get(available_unit['grade'])`.
(`update_info` is a dict, so its keys are unique and `List.lookup` agrees
with `dict.get`.) -/
def setUpdated (update_info : List (String × String)) (u : ProductUnit) : ProductUnit :=
  { u with updated := update_info.lookup u.grade }

/-- Line 139: `available_unit['grade'] == grade or grade == ""`. -/
def gradeKeep (grade : String) (u : ProductUnit) : Bool :=
  u.grade = grade || grade = ""

/-- Line 140: the free-text test, with the compiled pattern abstracted as
`pmatch`: `re.match(fr".*({filter}).*", product_name, re.IGNORECASE) or
re.match(fr".*({filter}).*", description, re.IGNORECASE)`. -/
def textKeep (pmatch : String → Bool) (u : ProductUnit) : Bool :=
  pmatch u.product_name || pmatch u.description

/-- Lines 141-146: the `if`/`elif`/`elif` price chain. -/
def priceKeep (max_price : Option ℚ) (u : ProductUnit) : Bool :=
  match max_price with
  | some mp => u.price ≤ mp || (u.discounted_price ≠ 0 && u.discounted_price ≤ mp)
  | none => true

/-- The body of the per-unit loop (lines 137-146): set `updated` on every
unit, then keep the units passing all three tests, in order. -/
def passUnits (pmatch : String → Bool) (grade : String) (max_price : Option ℚ)
    (update_info : List (String × String)) (units : List ProductUnit) :
    List ProductUnit :=
  (units.map (setUpdated update_info)).filter
    (fun u => gradeKeep grade u && textKeep pmatch u && priceKeep max_price u)

/-- The observable results of one run of `filter_products`:
* `final` — the state of the *input* dict `products` after the call (the
  loop pops and re-inserts each entry's `available_units` and mutates the
  shared per-product dicts in place);
* `filtered` — the returned `filtered_products` dict (whose entries alias
  those of `final`);
* `checked` — the URLs passed to `check_product_status`, in call order. -/
structure FilterResult where
  final : List (String × Product)
  filtered : List (String × Product)
  checked : List String
deriving DecidableEq

/-- Lines 123-152, with the dict modelled as an association list in
insertion order and `check_product_status` abstracted as `checkStatus`.
Each iteration replaces the product's unit list with its passing units,
appends the (shared) entry to `filtered_products`, pops it again if no
unit passed, and otherwise — when `check_status` is set — refreshes the
shared entry's status. -/
def filter_products (pmatch : String → Bool) (grade : String)
    (max_price : Option ℚ) (update_info : List (String × String))
    (check_status : Bool) (checkStatus : String → String) :
    List (String × Product) → FilterResult
  | [] => ⟨[], [], []⟩
  | (id, details) :: rest =>
    let kept := passUnits pmatch grade max_price update_info details.available_units
    let res := filter_products pmatch grade max_price update_info check_status
      checkStatus rest
    if kept = [] then
      ⟨(id, { details with available_units := kept }) :: res.final,
        res.filtered, res.checked⟩
    else if check_status then
      let d := { details with available_units := kept, status := checkStatus details.url }
      ⟨(id, d) :: res.final, (id, d) :: res.filtered, details.url :: res.checked⟩
    else
      let d := { details with available_units := kept }
      ⟨(id, d) :: res.final, (id, d) :: res.filtered, res.checked⟩

/-! ## Evaluation lemmas for the rounding and amount model -/

theorem rne_eq_of_lt (q : ℚ) (f : ℤ) (h1 : (f : ℚ) ≤ q) (h2 : q < (f : ℚ) + 1 / 2) :
    rne q = f := by
  have hf : ⌊q⌋ = f := Int.floor_eq_iff.mpr ⟨h1, by linarith⟩
  simp only [rne, hf]
  rw [if_pos (by linarith)]

theorem rne_eq_of_gt (q : ℚ) (f : ℤ) (h1 : (f : ℚ) + 1 / 2 < q) (h2 : q < (f : ℚ) + 1) :
    rne q = f + 1 := by
  have hf : ⌊q⌋ = f := Int.floor_eq_iff.mpr ⟨by linarith, by linarith⟩
  simp only [rne, hf]
  rw [if_neg (by linarith), if_pos (by linarith)]

theorem rne_eq_of_half (q : ℚ) (f : ℤ) (h : q = (f : ℚ) + 1 / 2) :
    rne q = if f % 2 = 0 then f else f + 1 := by
  have hf : ⌊q⌋ = f := Int.floor_eq_iff.mpr ⟨by linarith, by linarith⟩
  simp only [rne, hf]
  rw [if_neg (by rw [h]; linarith), if_neg (by rw [h]; linarith)]

theorem pyRound2_eq (x : ℚ) (z : ℤ) (h : rne (x * 100) = z) : pyRound2 x = (z : ℚ) / 100 := by
  simp [pyRound2, h]

theorem parseAmount_eq (l : List Char) (i f k : Nat) (h : parseAmountN l = some (i, f, k)) :
    parseAmount l = some ((i : ℚ) + (f : ℚ) / 10 ^ k) := by
  simp [parseAmount, h]

/-! ## Claim theorems -/

/-- **C5** — Parsing and normalising the line
`"123 Duoflex HX1 Terra Red GB Duoflex Outlet B1 Stock £299.00 £199.00"`
yields description `"Duoflex HX1 Terra Red"`, product name `"Duoflex"`,
grade `"B1"`, rrp 299.00, price 199.00, the zero sentinel as discounted
price and discount rate 33.44; the same line with trailing `"£179.00"`
yields discounted price 179.00 and discount rate 40.13. -/
theorem parse_line_scenarios :
    parse_line "123 Duoflex HX1 Terra Red GB Duoflex Outlet B1 Stock £299.00 £199.00"
      = some ("123", "https://www.miele.co.uk/product/123",
          ⟨"Duoflex HX1 Terra Red", "Duoflex", "B1", 299, 199, 0, 3344 / 100, none⟩)
    ∧ parse_line "123 Duoflex HX1 Terra Red GB Duoflex Outlet B1 Stock £299.00 £199.00 £179.00"
      = some ("123", "https://www.miele.co.uk/product/123",
          ⟨"Duoflex HX1 Terra Red", "Duoflex", "B1", 299, 199, 179, 4013 / 100, none⟩) := by
  have hra : parseAmount "299.00".data = some 299 := by
    have h := parseAmount_eq "299.00".data 299 0 2 (by decide)
    rw [h]; norm_num
  have hrp : parseAmount "199.00".data = some 199 := by
    have h := parseAmount_eq "199.00".data 199 0 2 (by decide)
    rw [h]; norm_num
  have hrd : parseAmount "179.00".data = some 179 := by
    have h := parseAmount_eq "179.00".data 179 0 2 (by decide)
    rw [h]; norm_num
  have hsplit : ((splitGo [] "Duoflex HX1 Terra Red GB Duoflex".data).map pyStrip)
      = ["Duoflex HX1 Terra Red", "GB", "Duoflex"] := by decide
  have hr1 : pyRound2 ((10000 : ℚ) / 299) = 836 / 25 := by
    rw [pyRound2_eq _ 3344 (rne_eq_of_lt _ 3344 (by norm_num) (by norm_num))]
    norm_num
  have hr2 : pyRound2 ((12000 : ℚ) / 299) = 4013 / 100 := by
    rw [pyRound2_eq _ 4013 (rne_eq_of_lt _ 4013 (by norm_num) (by norm_num))]
    norm_num
  constructor
  · have hm : productMatch
        "123 Duoflex HX1 Terra Red GB Duoflex Outlet B1 Stock £299.00 £199.00".data
        = some ⟨"123", "Duoflex HX1 Terra Red GB Duoflex", "Outlet B1 Stock",
            "299.00", "199.00", none⟩ := by decide
    rw [parse_line, hm, Option.some_bind]
    simp only [normalizeRow, hsplit, hra, hrp, Option.some_bind]
    norm_num [hr1]
    decide
  · have hm : productMatch
        "123 Duoflex HX1 Terra Red GB Duoflex Outlet B1 Stock £299.00 £199.00 £179.00".data
        = some ⟨"123", "Duoflex HX1 Terra Red GB Duoflex", "Outlet B1 Stock",
            "299.00", "199.00", some "179.00"⟩ := by decide
    rw [parse_line, hm, Option.some_bind]
    simp only [normalizeRow, hsplit, hra, hrp, hrd, Option.some_bind]
    norm_num [hr2]
    decide

/-- **C10** — `check_product_status` answers `"Active"` for every response
whose status code is not 404 (including unsuccessful ones such as 500 or
403); `"Error"` is never produced from a response, only from a
transport-level exception. -/
theorem check_product_status_non404 (fetch fetch2 : String → HttpOutcome)
    (url url2 : String) (c : Nat)
    (hresp : fetch url = .response c) (hfail : fetch2 url2 = .transportError) :
    check_product_status fetch url = (if c = 404 then "Inactive" else "Active")
    ∧ check_product_status fetch url ≠ "Error"
    ∧ check_product_status fetch2 url2 = "Error" := by
  refine ⟨by simp [check_product_status, hresp], ?_, by simp [check_product_status, hfail]⟩
  simp only [check_product_status, hresp]
  split <;> simp

/-- Witness for `check_product_status_non404` at a 500 response. -/
theorem check_product_status_non404_witness :
    check_product_status (fun _ => .response 500) "u" = (if 500 = 404 then "Inactive" else "Active")
    ∧ check_product_status (fun _ => .response 500) "u" ≠ "Error"
    ∧ check_product_status (fun _ => .transportError) "v" = "Error" :=
  check_product_status_non404 (fun _ => .response 500) (fun _ => .transportError)
    "u" "v" 500 rfl rfl

/-- **C2**, counterexample — the spec's formula fails on the code in two
ways.  (1) The code tests presence of the discounted-price *string* before
conversion, so a captured `£0.00` is used as the effective price (rate
100), while the spec's "present and nonzero" falls back to the regular
price (rate 50).  (2) The code rounds half-to-even (Python `round`), not
half-up: at rrp £8.00, price £7.99 the exact rate 0.125 is stored as 0.12,
while round_half_up gives 0.13. -/
theorem discount_rate_spec_counterexample :
    (parse_line "1 Foo Outlet B1 Stock £100.00 £50.00 £0.00").map
        (fun r => r.2.2.discount_rate) = some 100
    ∧ specDiscountRate 100 50 (some 0) = 50
    ∧ (parse_line "2 Foo Outlet B1 Stock £8.00 £7.99").map
        (fun r => r.2.2.discount_rate) = some (12 / 100)
    ∧ specDiscountRate 8 (799 / 100) none = 13 / 100
    ∧ (100 : ℚ) ≠ 50 ∧ (12 / 100 : ℚ) ≠ 13 / 100 := by
  have h100 : parseAmount "100.00".data = some 100 := by
    rw [parseAmount_eq "100.00".data 100 0 2 (by decide)]; norm_num
  have h50 : parseAmount "50.00".data = some 50 := by
    rw [parseAmount_eq "50.00".data 50 0 2 (by decide)]; norm_num
  have h0 : parseAmount "0.00".data = some 0 := by
    rw [parseAmount_eq "0.00".data 0 0 2 (by decide)]; norm_num
  have h8 : parseAmount "8.00".data = some 8 := by
    rw [parseAmount_eq "8.00".data 8 0 2 (by decide)]; norm_num
  have h799 : parseAmount "7.99".data = some (799 / 100) := by
    rw [parseAmount_eq "7.99".data 7 99 2 (by decide)]; norm_num
  refine ⟨?_, ?_, ?_, ?_, by norm_num, by norm_num⟩
  · have hm : productMatch "1 Foo Outlet B1 Stock £100.00 £50.00 £0.00".data
        = some ⟨"1", "Foo", "Outlet B1 Stock", "100.00", "50.00", some "0.00"⟩ := by decide
    have hr : pyRound2 (100 : ℚ) = 100 := by
      rw [pyRound2_eq _ 10000 (rne_eq_of_lt _ 10000 (by norm_num) (by norm_num))]
      norm_num
    rw [parse_line, hm, Option.some_bind]
    simp only [normalizeRow, h100, h50, h0, Option.some_bind]
    norm_num [hr]
  · have hf : (⌊(50 : ℚ) * 100 + 1 / 2⌋ : ℤ) = 5000 :=
      Int.floor_eq_iff.mpr ⟨by norm_num, by norm_num⟩
    simp only [specDiscountRate, roundHalfUp2]
    norm_num [hf]
  · have hm : productMatch "2 Foo Outlet B1 Stock £8.00 £7.99".data
        = some ⟨"2", "Foo", "Outlet B1 Stock", "8.00", "7.99", none⟩ := by decide
    have hr : pyRound2 ((1 : ℚ) / 8) = 12 / 100 := by
      rw [pyRound2_eq _ 12 (by rw [rne_eq_of_half _ 12 (by norm_num)]; norm_num)]
      norm_num
    rw [parse_line, hm, Option.some_bind]
    simp only [normalizeRow, h8, h799, Option.some_bind]
    norm_num [hr]
  · have hf : (⌊(25 : ℚ) / 2 * 100 + 1 / 2⌋ : ℤ) = 1250 :=
      Int.floor_eq_iff.mpr ⟨by norm_num, by norm_num⟩
    simp only [specDiscountRate, roundHalfUp2]
    norm_num [hf]

/-- **C2**, amended — the stored discount rate is Python
`round(…, 2)` — round-half-to-even on the exact value — of
`(rrp − effective_price) / rrp × 100`, where the effective price is the
discounted price whenever the discounted group was *captured* (even when
its value is zero), and the regular price otherwise. -/
theorem discount_rate_formula (raw : RawRow) (r : String × String × ProductUnit)
    (h : normalizeRow raw = some r) :
    r.2.2.discount_rate = pyRound2 ((r.2.2.rrp -
      (match raw.discounted_price with
       | some _ => r.2.2.discounted_price
       | none => r.2.2.price)) / r.2.2.rrp * 100) := by
  obtain ⟨rid, rdesc, rgrade, rrrp, rprice, rdisc⟩ := raw
  cases rdisc with
  | some ds =>
    simp only [normalizeRow] at h
    cases hra : parseAmount rrrp.data with
    | none => rw [hra] at h; simp at h
    | some rrp =>
      cases hrp : parseAmount rprice.data with
      | none => rw [hra, hrp] at h; simp at h
      | some price =>
        rw [hra, hrp] at h
        simp only [Option.some_bind] at h
        cases hds : parseAmount ds.data with
        | none => rw [hds] at h; simp at h
        | some dp =>
          rw [hds] at h
          simp only [Option.some_bind] at h
          split at h
          · simp at h
          · obtain rfl := Option.some_inj.mp h
            rfl
  | none =>
    simp only [normalizeRow] at h
    cases hra : parseAmount rrrp.data with
    | none => rw [hra] at h; simp at h
    | some rrp =>
      cases hrp : parseAmount rprice.data with
      | none => rw [hra, hrp] at h; simp at h
      | some price =>
        rw [hra, hrp] at h
        simp only [Option.some_bind] at h
        split at h
        · simp at h
        · obtain rfl := Option.some_inj.mp h
          rfl

/-- Witness for `discount_rate_formula` at a concrete row. -/
theorem discount_rate_formula_witness :
    (⟨"Foo", "", "B1", 100, 50, 0, 50, none⟩ : ProductUnit).discount_rate
      = pyRound2 ((100 - 50) / (100 : ℚ) * 100) := by
  have h100 : parseAmount "100.00".data = some 100 := by
    rw [parseAmount_eq "100.00".data 100 0 2 (by decide)]; norm_num
  have h50 : parseAmount "50.00".data = some 50 := by
    rw [parseAmount_eq "50.00".data 50 0 2 (by decide)]; norm_num
  have hr : pyRound2 (50 : ℚ) = 50 := by
    rw [pyRound2_eq _ 5000 (rne_eq_of_lt _ 5000 (by norm_num) (by norm_num))]
    norm_num
  have h : normalizeRow ⟨"1", "Foo", "Outlet B1 Stock", "100.00", "50.00", none⟩
      = some ("1", "https://www.miele.co.uk/product/1",
          ⟨"Foo", "", "B1", 100, 50, 0, 50, none⟩) := by
    simp only [normalizeRow, h100, h50, Option.some_bind]
    norm_num [hr]
    decide
  exact discount_rate_formula _ _ h

/-! ## Structure of one `filter_products` run -/

theorem setUpdated_idem (ui : List (String × String)) (u : ProductUnit) :
    setUpdated ui (setUpdated ui u) = setUpdated ui u := by
  simp [setUpdated]

theorem keep_setUpdated (pm : String → Bool) (grade : String) (mp : Option ℚ)
    (ui : List (String × String)) (u : ProductUnit) :
    (gradeKeep grade (setUpdated ui u) && textKeep pm (setUpdated ui u)
      && priceKeep mp (setUpdated ui u))
    = (gradeKeep grade u && textKeep pm u && priceKeep mp u) := by
  cases mp <;> simp [setUpdated, gradeKeep, textKeep, priceKeep]

theorem passUnits_cons (pm : String → Bool) (grade : String) (mp : Option ℚ)
    (ui : List (String × String)) (u : ProductUnit) (us : List ProductUnit) :
    passUnits pm grade mp ui (u :: us)
      = if gradeKeep grade (setUpdated ui u) && textKeep pm (setUpdated ui u)
            && priceKeep mp (setUpdated ui u) then
          setUpdated ui u :: passUnits pm grade mp ui us
        else passUnits pm grade mp ui us := by
  simp [passUnits, List.filter_cons]

theorem passUnits_idem (pm : String → Bool) (grade : String) (mp : Option ℚ)
    (ui : List (String × String)) (us : List ProductUnit) :
    passUnits pm grade mp ui (passUnits pm grade mp ui us)
      = passUnits pm grade mp ui us := by
  induction us with
  | nil => rfl
  | cons u us ih =>
    rw [passUnits_cons]
    by_cases hk : (gradeKeep grade (setUpdated ui u) && textKeep pm (setUpdated ui u)
        && priceKeep mp (setUpdated ui u)) = true
    · have hk2 : (gradeKeep grade u && textKeep pm u && priceKeep mp u) = true :=
        (keep_setUpdated pm grade mp ui u).symm.trans hk
      rw [if_pos hk, passUnits_cons, setUpdated_idem, keep_setUpdated, if_pos hk2, ih]
    · rw [if_neg hk, ih]

/-- **C8** — running the filter twice with the same predicates (and the
status check disabled) returns the same filtered collection as running it
once: same product identifiers, same retained units, in the same order. -/
theorem filter_products_idempotent (pm : String → Bool) (grade : String)
    (mp : Option ℚ) (ui : List (String × String)) (cs cs2 : String → String)
    (products : List (String × Product)) :
    (filter_products pm grade mp ui false cs2
        ((filter_products pm grade mp ui false cs products).filtered)).filtered
      = (filter_products pm grade mp ui false cs products).filtered := by
  induction products with
  | nil => rfl
  | cons e rest ih =>
    obtain ⟨id, d⟩ := e
    simp only [filter_products]
    by_cases hk : passUnits pm grade mp ui d.available_units = []
    · rw [if_pos hk]
      exact ih
    · rw [if_neg hk]
      simp only [if_neg (by simp : ¬(false = true)), filter_products]
      rw [if_neg (by simpa [passUnits_idem] using hk)]
      simp only [if_neg (by simp : ¬(false = true)), passUnits_idem]
      rw [ih]

/-- **C3**, counterexample — with the status check disabled and a grade
constraint excluding product 1's only unit but admitting product 2's, the
input `products` map is mutated beyond its availability status: product
1's unit list is emptied, and product 2's surviving unit gains an
`updated` value taken from `update_info`. -/
theorem filter_products_mutation_counterexample :
    (filter_products (fun _ => true) "B2" none [("B2", "05/05/2025")] false
        (fun _ => "X")
        [("1", ⟨"u1", "Unknown", [⟨"Foo", "", "B1", 100, 50, 0, 50, none⟩]⟩),
         ("2", ⟨"u2", "Unknown", [⟨"Bar", "", "B2", 100, 50, 0, 50, none⟩]⟩)]).final
      = [("1", ⟨"u1", "Unknown", []⟩),
         ("2", ⟨"u2", "Unknown", [⟨"Bar", "", "B2", 100, 50, 0, 50, some "05/05/2025"⟩]⟩)]
    ∧ [("1", (⟨"u1", "Unknown", []⟩ : Product)),
       ("2", ⟨"u2", "Unknown", [⟨"Bar", "", "B2", 100, 50, 0, 50, some "05/05/2025"⟩]⟩)]
      ≠ [("1", ⟨"u1", "Unknown", [⟨"Foo", "", "B1", 100, 50, 0, 50, none⟩]⟩),
         ("2", ⟨"u2", "Unknown", [⟨"Bar", "", "B2", 100, 50, 0, 50, none⟩]⟩)] := by
  constructor
  · decide
  · decide

/-- **C3**, amended — `filter_products` does *not* leave the input intact:
after a run, every entry of the input dict has had its unit list replaced
by its passing units (each carrying the `updated` value looked up from
`update_info`), and — where at least one unit passed and the status check
is enabled — its status replaced by the check result.  All other fields
(the URL, the surviving units' prices, names, grades and rates) are
unchanged, and the returned dict's entries alias these final input
entries. -/
theorem filter_products_final_state (pm : String → Bool) (grade : String)
    (mp : Option ℚ) (ui : List (String × String)) (check : Bool)
    (cs : String → String) (products : List (String × Product)) :
    (filter_products pm grade mp ui check cs products).final
      = products.map (fun e =>
          (e.1,
           let kept := passUnits pm grade mp ui e.2.available_units
           if kept = [] then { e.2 with available_units := kept }
           else if check then
             { e.2 with available_units := kept, status := cs e.2.url }
           else { e.2 with available_units := kept })) := by
  induction products with
  | nil => rfl
  | cons e rest ih =>
    obtain ⟨id, d⟩ := e
    simp only [filter_products, List.map_cons]
    by_cases hk : passUnits pm grade mp ui d.available_units = []
    · rw [if_pos hk]
      simp [hk, ih]
    · rw [if_neg hk]
      cases check
      · simp [hk, ih]
      · simp [hk, ih]

/-- Identifiers absent from the input are absent from the filtered
output. -/
theorem filtered_lookup_of_not_mem (pm : String → Bool) (grade : String)
    (mp : Option ℚ) (ui : List (String × String)) (check : Bool)
    (cs : String → String) (products : List (String × Product)) (id : String)
    (h : id ∉ products.map Prod.fst) :
    (filter_products pm grade mp ui check cs products).filtered.lookup id = none := by
  induction products with
  | nil => rfl
  | cons e rest ih =>
    obtain ⟨k, d⟩ := e
    simp only [List.map_cons, List.mem_cons, not_or] at h
    obtain ⟨hne, hrest⟩ := h
    simp only [filter_products]
    by_cases hk : passUnits pm grade mp ui d.available_units = []
    · rw [if_pos hk]
      exact ih hrest
    · rw [if_neg hk]
      have hbeq : (id == k) = false := beq_eq_false_iff_ne.mpr hne
      cases check <;>
        simp only [Bool.false_eq_true, if_false, if_true, List.lookup, hbeq] <;>
        exact ih hrest

/-- The filtered output, looked up by identifier: `none` off the input's
key set and for products with no passing unit; otherwise the entry with
its unit list replaced by the passing units (and the checked status when
enabled). -/
theorem filtered_lookup_spec (pm : String → Bool) (grade : String)
    (mp : Option ℚ) (ui : List (String × String)) (check : Bool)
    (cs : String → String) (products : List (String × Product)) (id : String)
    (hnd : (products.map Prod.fst).Nodup) :
    (filter_products pm grade mp ui check cs products).filtered.lookup id
      = match products.lookup id with
        | none => none
        | some d =>
          let kept := passUnits pm grade mp ui d.available_units
          if kept = [] then none
          else some { d with available_units := kept, status := if check then cs d.url else d.status } := by
  induction products with
  | nil => rfl
  | cons e rest ih =>
    obtain ⟨k, d⟩ := e
    simp only [List.map_cons, List.nodup_cons] at hnd
    obtain ⟨hk_mem, hnd_rest⟩ := hnd
    by_cases hid : id = k
    · subst hid
      simp only [filter_products, List.lookup, beq_self_eq_true]
      by_cases hk : passUnits pm grade mp ui d.available_units = []
      · rw [if_pos hk]
        rw [filtered_lookup_of_not_mem pm grade mp ui check cs rest id hk_mem]
        simp [hk]
      · rw [if_neg hk]
        cases check <;> simp [List.lookup, hk]
    · have hbeq : (id == k) = false := beq_eq_false_iff_ne.mpr hid
      simp only [filter_products, List.lookup, hbeq]
      by_cases hk : passUnits pm grade mp ui d.available_units = []
      · rw [if_pos hk]
        exact ih hnd_rest
      · rw [if_neg hk]
        cases check <;> simp only [Bool.false_eq_true, if_false, if_true,
          List.lookup, hbeq] <;> exact ih hnd_rest

/-- **C1** — For every product collection with distinct identifiers and
every choice of predicates, the filtered output contains a product iff at
least one of its units passes all three per-unit tests — (grade
unconstrained or equal), (pattern matches name or description), (no price
ceiling, or price within it, or a non-sentinel discounted price within
it) — and a surviving product's retained list is exactly its passing
units, in document order (each carrying its `updated` lookup). -/
theorem filter_products_lookup (pm : String → Bool) (grade : String)
    (mp : Option ℚ) (ui : List (String × String)) (check : Bool)
    (cs : String → String) (products : List (String × Product)) (id : String)
    (hnd : (products.map Prod.fst).Nodup) :
    (filter_products pm grade mp ui check cs products).filtered.lookup id
      = match products.lookup id with
        | none => none
        | some d =>
          let kept := passUnits pm grade mp ui d.available_units
          if kept = [] then none
          else some { d with available_units := kept, status := if check then cs d.url else d.status } :=
  filtered_lookup_spec pm grade mp ui check cs products id hnd

/-- Witness for `filter_products_lookup`: the max-price scenario — with a
£150 ceiling, the unit priced £199.00 discounted to £179.00 is dropped and
the one discounted to £140.00 is kept. -/
theorem filter_products_lookup_witness :
    (filter_products (fun _ => true) "" (some 150) [] false (fun _ => "X")
        [("9", ⟨"u", "Unknown",
          [⟨"A", "", "B1", 300, 199, 179, 0, none⟩,
           ⟨"B", "", "B1", 300, 199, 140, 0, none⟩]⟩)]).filtered.lookup "9"
      = match [("9", (⟨"u", "Unknown",
          [⟨"A", "", "B1", 300, 199, 179, 0, none⟩,
           ⟨"B", "", "B1", 300, 199, 140, 0, none⟩]⟩ : Product))].lookup "9" with
        | none => none
        | some d =>
          let kept := passUnits (fun _ => true) "" (some 150) [] d.available_units
          if kept = [] then none
          else some { d with available_units := kept, status := if false then (fun _ => "X") d.url else d.status } :=
  filter_products_lookup (fun _ => true) "" (some 150) [] false (fun _ => "X")
    [("9", ⟨"u", "Unknown",
      [⟨"A", "", "B1", 300, 199, 179, 0, none⟩,
       ⟨"B", "", "B1", 300, 199, 140, 0, none⟩]⟩)] "9" (by decide)

/-- With the status check enabled, the URLs passed to
`check_product_status` are exactly the surviving products' URLs, once
each, in output order. -/
theorem checked_eq_filtered_urls (pm : String → Bool) (grade : String)
    (mp : Option ℚ) (ui : List (String × String)) (cs : String → String)
    (products : List (String × Product)) :
    (filter_products pm grade mp ui true cs products).checked
      = (filter_products pm grade mp ui true cs products).filtered.map
          (fun e => e.2.url) := by
  induction products with
  | nil => rfl
  | cons e rest ih =>
    obtain ⟨k, d⟩ := e
    simp only [filter_products]
    by_cases hk : passUnits pm grade mp ui d.available_units = []
    · rw [if_pos hk]
      exact ih
    · rw [if_neg hk]
      simp only [if_true, List.map_cons, ih]

/-- With the status check disabled no URL is ever checked. -/
theorem checked_nil_of_not_check (pm : String → Bool) (grade : String)
    (mp : Option ℚ) (ui : List (String × String)) (cs : String → String)
    (products : List (String × Product)) :
    (filter_products pm grade mp ui false cs products).checked = [] := by
  induction products with
  | nil => rfl
  | cons e rest ih =>
    obtain ⟨k, d⟩ := e
    simp only [filter_products]
    by_cases hk : passUnits pm grade mp ui d.available_units = []
    · rw [if_pos hk]; exact ih
    · rw [if_neg hk]; simpa using ih

/-- **C4** — the availability check maps an HTTP 404 response to
`"Inactive"`, any other response (in particular any successful one) to
`"Active"`, and a transport failure to `"Error"`; a transport failure is
recovered locally — the surviving product stays in the output with status
`"Error"` and the run completes — and with the check enabled each
surviving product's URL is checked exactly once (and nothing else is). -/
theorem check_status_integration (fetch fetch2 : String → HttpOutcome)
    (url2 : String) (c : Nat) (pm : String → Bool) (grade : String)
    (mp : Option ℚ) (ui : List (String × String))
    (products : List (String × Product)) (id : String) (d : Product)
    (hnd : (products.map Prod.fst).Nodup)
    (hlook : products.lookup id = some d)
    (hkept : passUnits pm grade mp ui d.available_units ≠ [])
    (hfail : fetch d.url = .transportError)
    (hresp : fetch2 url2 = .response c) :
    check_product_status fetch2 url2 = (if c = 404 then "Inactive" else "Active")
    ∧ (filter_products pm grade mp ui true (check_product_status fetch)
        products).filtered.lookup id
      = some { d with available_units := passUnits pm grade mp ui d.available_units, status := "Error" }
    ∧ (filter_products pm grade mp ui true (check_product_status fetch)
        products).checked
      = (filter_products pm grade mp ui true (check_product_status fetch)
          products).filtered.map (fun e => e.2.url) := by
  refine ⟨by simp [check_product_status, hresp], ?_,
    checked_eq_filtered_urls pm grade mp ui (check_product_status fetch) products⟩
  rw [filtered_lookup_spec pm grade mp ui true (check_product_status fetch)
    products id hnd, hlook]
  simp only [if_neg hkept, if_true]
  rw [show check_product_status fetch d.url = "Error" by
    simp [check_product_status, hfail]]

/-- Witness for `check_status_integration` on a one-product collection
whose URL times out. -/
theorem check_status_integration_witness :
    check_product_status (fun _ => .response 500) "w" = (if 500 = 404 then "Inactive" else "Active")
    ∧ (filter_products (fun _ => true) "" none []
          true (check_product_status (fun _ => .transportError))
          [("1", ⟨"u1", "Unknown", [⟨"Foo", "", "B1", 100, 50, 0, 50, none⟩]⟩)]).filtered.lookup "1"
      = some { (⟨"u1", "Unknown", [⟨"Foo", "", "B1", 100, 50, 0, 50, none⟩]⟩ : Product) with available_units := passUnits (fun _ => true) "" none [] [⟨"Foo", "", "B1", 100, 50, 0, 50, none⟩], status := "Error" }
    ∧ (filter_products (fun _ => true) "" none []
          true (check_product_status (fun _ => .transportError))
          [("1", ⟨"u1", "Unknown", [⟨"Foo", "", "B1", 100, 50, 0, 50, none⟩]⟩)]).checked
      = (filter_products (fun _ => true) "" none []
          true (check_product_status (fun _ => .transportError))
          [("1", ⟨"u1", "Unknown", [⟨"Foo", "", "B1", 100, 50, 0, 50, none⟩]⟩)]).filtered.map
            (fun e => e.2.url) :=
  check_status_integration (fun _ => .transportError) (fun _ => .response 500)
    "w" 500 (fun _ => true) "" none []
    [("1", ⟨"u1", "Unknown", [⟨"Foo", "", "B1", 100, 50, 0, 50, none⟩]⟩)]
    "1" ⟨"u1", "Unknown", [⟨"Foo", "", "B1", 100, 50, 0, 50, none⟩]⟩
    (by decide) (by decide) (by decide) rfl rfl

/-! ## Bounds on the discount rate -/

theorem parseAmount_nonneg (l : List Char) (v : ℚ) (h : parseAmount l = some v) :
    0 ≤ v := by
  unfold parseAmount at h
  cases hn : parseAmountN l with
  | none => rw [hn] at h; simp at h
  | some t =>
    rw [hn] at h
    simp only [Option.map_some'] at h
    obtain rfl := Option.some_inj.mp h
    positivity

theorem rne_nonneg (q : ℚ) (h : 0 ≤ q) : 0 ≤ rne q := by
  have hf : (0 : ℤ) ≤ ⌊q⌋ := Int.floor_nonneg.mpr h
  unfold rne
  split_ifs <;> omega

theorem rne_le (q : ℚ) (n : ℤ) (h : q ≤ (n : ℚ)) : rne q ≤ n := by
  have hf : ⌊q⌋ ≤ n := by
    have := Int.floor_le_floor h
    rwa [Int.floor_intCast] at this
  have hq : (⌊q⌋ : ℚ) ≤ q := Int.floor_le q
  unfold rne
  split_ifs with h1 h2 h3
  · exact hf
  · have hlt : (⌊q⌋ : ℚ) < (n : ℚ) := by linarith
    have := Int.cast_lt.mp hlt
    omega
  · exact hf
  · have hlt : (⌊q⌋ : ℚ) < (n : ℚ) := by linarith
    have := Int.cast_lt.mp hlt
    omega

theorem pyRound2_bounds (x : ℚ) (h0 : 0 ≤ x) (h1 : x ≤ 100) :
    0 ≤ pyRound2 x ∧ pyRound2 x ≤ 100 := by
  have k0 : (0 : ℤ) ≤ rne (x * 100) := rne_nonneg _ (by linarith)
  have k1 : rne (x * 100) ≤ 10000 := rne_le _ 10000 (by push_cast; linarith)
  constructor
  · exact div_nonneg (by exact_mod_cast k0) (by norm_num)
  · rw [pyRound2, div_le_iff₀ (by norm_num : (0 : ℚ) < 100)]
    have : ((rne (x * 100) : ℤ) : ℚ) ≤ 10000 := by exact_mod_cast k1
    linarith

/-- **C7** — every successfully normalised unit whose price — and, when
non-sentinel, discounted price — is at most its rrp has a discount rate
between 0 and 100. -/
theorem discount_rate_bounds (raw : RawRow) (r : String × String × ProductUnit)
    (h : normalizeRow raw = some r)
    (hp : r.2.2.price ≤ r.2.2.rrp)
    (hd : r.2.2.discounted_price ≠ 0 → r.2.2.discounted_price ≤ r.2.2.rrp) :
    0 ≤ r.2.2.discount_rate ∧ r.2.2.discount_rate ≤ 100 := by
  obtain ⟨rid, rdesc, rgrade, rrrp, rprice, rdisc⟩ := raw
  cases rdisc with
  | some ds =>
    simp only [normalizeRow] at h
    cases hra : parseAmount rrrp.data with
    | none => rw [hra] at h; simp at h
    | some rrp =>
      cases hrp : parseAmount rprice.data with
      | none => rw [hra, hrp] at h; simp at h
      | some price =>
        cases hds : parseAmount ds.data with
        | none => rw [hra, hrp, hds] at h; simp at h
        | some dp =>
          rw [hra, hrp, hds] at h
          simp only [Option.some_bind] at h
          split at h
          · simp at h
          · next hr0 =>
            obtain rfl := Option.some_inj.mp h
            have hd2 : dp ≠ 0 → dp ≤ rrp := hd
            have h0 : 0 ≤ rrp := parseAmount_nonneg _ _ hra
            have hdp : 0 ≤ dp := parseAmount_nonneg _ _ hds
            have hpos : 0 < rrp := lt_of_le_of_ne h0 (Ne.symm hr0)
            have heff : dp ≤ rrp := by
              by_cases hz : dp = 0
              · rw [hz]; exact h0
              · exact hd2 hz
            exact pyRound2_bounds _
              (mul_nonneg (div_nonneg (by linarith) h0) (by norm_num))
              (by
                have hq : (rrp - dp) / rrp ≤ 1 := (div_le_one hpos).mpr (by linarith)
                linarith)
  | none =>
    simp only [normalizeRow] at h
    cases hra : parseAmount rrrp.data with
    | none => rw [hra] at h; simp at h
    | some rrp =>
      cases hrp : parseAmount rprice.data with
      | none => rw [hra, hrp] at h; simp at h
      | some price =>
        rw [hra, hrp] at h
        simp only [Option.some_bind] at h
        split at h
        · simp at h
        · next hr0 =>
          obtain rfl := Option.some_inj.mp h
          have hp2 : price ≤ rrp := hp
          have h0 : 0 ≤ rrp := parseAmount_nonneg _ _ hra
          have hpr : 0 ≤ price := parseAmount_nonneg _ _ hrp
          have hpos : 0 < rrp := lt_of_le_of_ne h0 (Ne.symm hr0)
          exact pyRound2_bounds _
            (mul_nonneg (div_nonneg (by linarith) h0) (by norm_num))
            (by
              have hq : (rrp - price) / rrp ≤ 1 := (div_le_one hpos).mpr (by linarith)
              linarith)

/-- Witness for `discount_rate_bounds` at a concrete normalised row. -/
theorem discount_rate_bounds_witness :
    0 ≤ (⟨"Bar", "", "B1", 200, 150, 0, 25, none⟩ : ProductUnit).discount_rate
    ∧ (⟨"Bar", "", "B1", 200, 150, 0, 25, none⟩ : ProductUnit).discount_rate ≤ 100 := by
  have h200 : parseAmount "200.00".data = some 200 := by
    rw [parseAmount_eq "200.00".data 200 0 2 (by decide)]; norm_num
  have h150 : parseAmount "150.00".data = some 150 := by
    rw [parseAmount_eq "150.00".data 150 0 2 (by decide)]; norm_num
  have hr : pyRound2 (25 : ℚ) = 25 := by
    rw [pyRound2_eq _ 2500 (rne_eq_of_lt _ 2500 (by norm_num) (by norm_num))]
    norm_num
  have h : normalizeRow ⟨"3", "Bar", "Outlet B1 Stock", "200.00", "150.00", none⟩
      = some ("3", "https://www.miele.co.uk/product/3",
          ⟨"Bar", "", "B1", 200, 150, 0, 25, none⟩) := by
    simp only [normalizeRow, h200, h150, Option.some_bind]
    norm_num [hr]
    decide
  exact discount_rate_bounds _ _ h (by norm_num) (fun hc => by norm_num)

/-! ## Anchoring of the two patterns -/

theorem stripPre_append (p l e r : List Char) (h : stripPre p l = some r) :
    stripPre p (l ++ e) = some (r ++ e) := by
  induction p generalizing l with
  | nil =>
    simp only [stripPre] at h
    obtain rfl := Option.some_inj.mp h
    simp [stripPre]
  | cons a p ih =>
    cases l with
    | nil => simp [stripPre] at h
    | cons c cs =>
      simp only [List.cons_append, stripPre] at h ⊢
      split at h
      · next hc => rw [if_pos hc]; exact ih cs h
      · simp at h

theorem span_append (p : Char → Bool) (l e : List Char) (h : l.dropWhile p ≠ []) :
    (l ++ e).takeWhile p = l.takeWhile p
    ∧ (l ++ e).dropWhile p = l.dropWhile p ++ e := by
  induction l with
  | nil => simp at h
  | cons c cs ih =>
    by_cases hp : p c
    · rw [List.dropWhile_cons, if_pos hp] at h
      obtain ⟨h1, h2⟩ := ih h
      constructor
      · rw [List.cons_append, List.takeWhile_cons, if_pos hp, h1,
          List.takeWhile_cons, if_pos hp]
      · rw [List.cons_append, List.dropWhile_cons, if_pos hp, h2,
          List.dropWhile_cons, if_pos hp]
    · constructor
      · rw [List.cons_append, List.takeWhile_cons, if_neg hp,
          List.takeWhile_cons, if_neg hp]
      · rw [List.cons_append, List.dropWhile_cons, if_neg hp,
          List.dropWhile_cons, if_neg hp, List.cons_append]

theorem readExact_append (p : Char → Bool) (n : Nat) (l e d r : List Char)
    (h : readExact p n l = some (d, r)) :
    readExact p n (l ++ e) = some (d, r ++ e) := by
  induction n generalizing l d with
  | zero =>
    simp only [readExact] at h
    obtain ⟨rfl, rfl⟩ := Prod.ext_iff.mp (Option.some_inj.mp h)
    rfl
  | succ n ih =>
    cases l with
    | nil => simp [readExact] at h
    | cons c cs =>
      simp only [List.cons_append, readExact] at h ⊢
      split at h
      · next hc =>
        rw [if_pos hc]
        cases hrec : readExact p n cs with
        | none => rw [hrec] at h; simp at h
        | some t =>
          obtain ⟨td, tr⟩ := t
          rw [hrec] at h
          simp only [Option.map_some'] at h
          obtain ⟨rfl, rfl⟩ := Prod.ext_iff.mp (Option.some_inj.mp h)
          rw [show cs.append e = cs ++ e from rfl, ih cs td hrec]
          simp
      · simp at h

theorem expectChar_append (a : Char) (l e r : List Char) (h : expectChar a l = some r) :
    expectChar a (l ++ e) = some (r ++ e) := by
  cases l with
  | nil => simp [expectChar] at h
  | cons c cs =>
    simp only [List.cons_append, expectChar] at h ⊢
    split at h
    · next hc =>
      obtain rfl := Option.some_inj.mp h
      rw [if_pos hc]
    · simp at h

/-- The update pattern has no `$` anchor: a successful `re.match` is a
prefix match, so appending anything to a matching line leaves the match —
and its captures — unchanged. -/
theorem updateMatch_append (l e : List Char) (gd : String × String)
    (h : updateMatch l = some gd) : updateMatch (l ++ e) = some gd := by
  unfold updateMatch at h ⊢
  cases h1 : stripPre "Miele Outlet ".data l with
  | none => rw [h1] at h; simp at h
  | some r1 =>
    rw [h1] at h
    rw [stripPre_append _ _ e _ h1]
    simp only [Option.some_bind] at h ⊢
    split at h
    · simp at h
    · next hg =>
      cases h2 : stripPre " Grade Pricelist - Updated ".data (r1.dropWhile upperAlnum) with
      | none => rw [h2] at h; simp at h
      | some r3 =>
        rw [h2] at h
        have hr2ne : r1.dropWhile upperAlnum ≠ [] := by
          intro hnil
          rw [hnil] at h2
          simp [stripPre] at h2
        obtain ⟨ht, hd⟩ := span_append upperAlnum r1 e hr2ne
        rw [ht, hd, if_neg hg, stripPre_append _ _ e _ h2]
        simp only [Option.some_bind] at h ⊢
        cases h3 : readExact reDigit 2 r3 with
        | none => rw [h3] at h; simp at h
        | some d1 =>
          rw [h3] at h
          rw [readExact_append _ _ _ e _ _ (by rw [h3])]
          simp only [Option.some_bind] at h ⊢
          cases h4 : expectChar '/' d1.2 with
          | none => rw [h4] at h; simp at h
          | some r4 =>
            rw [h4] at h
            rw [expectChar_append _ _ e _ h4]
            simp only [Option.some_bind] at h ⊢
            cases h5 : readExact reDigit 2 r4 with
            | none => rw [h5] at h; simp at h
            | some d2 =>
              rw [h5] at h
              rw [readExact_append _ _ _ e _ _ (by rw [h5])]
              simp only [Option.some_bind] at h ⊢
              cases h6 : expectChar '/' d2.2 with
              | none => rw [h6] at h; simp at h
              | some r5 =>
                rw [h6] at h
                rw [expectChar_append _ _ e _ h6]
                simp only [Option.some_bind] at h ⊢
                cases h7 : readExact reDigit 4 r5 with
                | none => rw [h7] at h; simp at h
                | some d3 =>
                  rw [h7] at h
                  rw [readExact_append _ _ _ e _ _ (by rw [h7])]
                  simpa using h

/-- **C6**, counterexample — a line made of a valid update row followed by
nonempty trailing text still matches the update shape (the update pattern
is only start-anchored), contradicting "matches neither shape". -/
theorem update_match_trailing_counterexample :
    updateMatch "Miele Outlet B1 Grade Pricelist - Updated 01/03/2024".data
      = some ("B1", "01/03/2024")
    ∧ updateMatch ("Miele Outlet B1 Grade Pricelist - Updated 01/03/2024".data
        ++ " EXTRA JUNK".data)
      = some ("B1", "01/03/2024") := by
  constructor
  · decide
  · decide

/-- **C6**, amended — the product-row pattern is full-line anchored (its
`$` rejects trailing text: the scenario row with `" JUNK"` appended
matches nothing), but the update pattern is only start-anchored: any line
beginning with a valid update row matches, with the same captures,
whatever follows. -/
theorem pattern_anchoring (l e : List Char) (gd : String × String)
    (h : updateMatch l = some gd) :
    updateMatch (l ++ e) = some gd
    ∧ productMatch ("123 Duoflex HX1 Terra Red GB Duoflex Outlet B1 Stock £299.00 £199.00".data
        ++ " JUNK".data) = none :=
  ⟨updateMatch_append l e gd h, by decide⟩

/-- Witness for `pattern_anchoring` at a concrete update line. -/
theorem pattern_anchoring_witness :
    updateMatch ("Miele Outlet B2 Grade Pricelist - Updated 11/12/2025".data
        ++ "!!".data) = some ("B2", "11/12/2025")
    ∧ productMatch ("123 Duoflex HX1 Terra Red GB Duoflex Outlet B1 Stock £299.00 £199.00".data
        ++ " JUNK".data) = none :=
  pattern_anchoring "Miele Outlet B2 Grade Pricelist - Updated 11/12/2025".data
    "!!".data ("B2", "11/12/2025") (by decide)

/-! ## Every amount string captured by the grammar parses -/

theorem readExact_all (p : Char → Bool) (n : Nat) (l d r : List Char)
    (h : readExact p n l = some (d, r)) :
    d.length = n ∧ ∀ c ∈ d, p c = true := by
  induction n generalizing l d with
  | zero =>
    simp only [readExact] at h
    obtain ⟨rfl, rfl⟩ := Prod.ext_iff.mp (Option.some_inj.mp h)
    simp
  | succ n ih =>
    cases l with
    | nil => simp [readExact] at h
    | cons c cs =>
      simp only [readExact] at h
      split at h
      · next hc =>
        cases hrec : readExact p n cs with
        | none => rw [hrec] at h; simp at h
        | some t =>
          obtain ⟨td, tr⟩ := t
          rw [hrec] at h
          simp only [Option.map_some'] at h
          obtain ⟨rfl, rfl⟩ := Prod.ext_iff.mp (Option.some_inj.mp h)
          obtain ⟨hl, hall⟩ := ih cs td hrec
          refine ⟨by simp [hl], ?_⟩
          intro x hx
          rcases List.mem_cons.mp hx with rfl | hx2
          · exact hc
          · exact hall x hx2
      · simp at h

theorem span_sandwich (p : Char → Bool) (xs ys : List Char) (y : Char)
    (hall : ∀ x ∈ xs, p x = true) (hy : p y = false) :
    (xs ++ y :: ys).takeWhile p = xs ∧ (xs ++ y :: ys).dropWhile p = y :: ys := by
  induction xs with
  | nil => simp [List.takeWhile_cons, List.dropWhile_cons, hy]
  | cons c cs ih =>
    have hc := hall c (List.mem_cons_self c cs)
    obtain ⟨h1, h2⟩ := ih (fun x hx => hall x (List.mem_cons_of_mem c hx))
    constructor
    · rw [List.cons_append, List.takeWhile_cons, if_pos hc, h1]
    · rw [List.cons_append, List.dropWhile_cons, if_pos hc, h2]

theorem reDigit_ne_comma (c : Char) (h : reDigit c = true) : c ≠ ',' := by
  intro he
  subst he
  exact absurd h (by decide)

theorem digitComma_reDigit (c : Char) (h : digitComma c = true) (hc : c ≠ ',') :
    reDigit c = true := by
  simp only [digitComma, Bool.or_eq_true] at h
  rcases h with h | h
  · exact h
  · exact absurd (by simpa using h) hc

/-- Any string produced by the `[\d,]+\.\d{2}` amount group survives
`float(s.replace(",", ""))`. -/
theorem readAmount_parseAmount (l a r : List Char) (h : readAmount l = some (a, r)) :
    (parseAmount a).isSome = true := by
  simp only [readAmount] at h
  split at h
  · simp at h
  · next hA0 =>
    split at h
    · next r2 heq =>
      cases hre : readExact reDigit 2 r2 with
      | none => rw [hre] at h; simp at h
      | some t =>
        obtain ⟨d, r3⟩ := t
        rw [hre] at h
        simp only at h
        obtain ⟨rfl, rfl⟩ := Prod.ext_iff.mp (Option.some_inj.mp h)
        obtain ⟨hdl, hdall⟩ := readExact_all reDigit 2 r2 d _ hre
        have ha0 : ∀ c ∈ l.takeWhile digitComma, digitComma c = true :=
          fun c hc => List.mem_takeWhile_imp hc
        -- the comma-stripped string is a0f ++ '.' :: d
        have hfilter : (l.takeWhile digitComma ++ '.' :: d).filter (fun c => c ≠ ',')
            = (l.takeWhile digitComma).filter (fun c => c ≠ ',') ++ '.' :: d := by
          rw [List.filter_append, List.filter_cons, if_pos (by decide)]
          congr 1
          congr 1
          rw [List.filter_eq_self]
          intro c hc
          simpa using reDigit_ne_comma c (hdall c hc)
        have hallf : ∀ c ∈ (l.takeWhile digitComma).filter (fun c => c ≠ ','),
            reDigit c = true := by
          intro c hc
          obtain ⟨hmem, hne⟩ := List.mem_filter.mp hc
          exact digitComma_reDigit c (ha0 c hmem) (by simpa using hne)
        obtain ⟨hT, hD⟩ := span_sandwich reDigit
          ((l.takeWhile digitComma).filter (fun c => c ≠ ',')) d '.' hallf (by decide)
        have hd_ne : d ≠ [] := by
          intro hnil
          rw [hnil] at hdl
          simp at hdl
        simp only [parseAmount, parseAmountN, hfilter, hT, hD]
        simp [List.all_eq_true.mpr hdall, hd_ne]
    · simp at h

/-- A successful present-branch of the optional group captures a string
that parses. -/
theorem discTry_amount (l d : List Char) (h : discTry l = some d) :
    (parseAmount d).isSome = true := by
  simp only [discTry] at h
  split at h
  · simp at h
  · cases h8 : expectChar '£' (l.dropWhile pySpace) with
    | none => rw [h8] at h; simp at h
    | some r11 =>
      rw [h8] at h
      simp only [Option.some_bind] at h
      cases h9 : readAmount r11 with
      | none => rw [h9] at h; simp at h
      | some rd =>
        obtain ⟨rd1, rd2⟩ := rd
        rw [h9] at h
        simp only [Option.some_bind] at h
        split at h
        · obtain rfl := Option.some_inj.mp h
          exact readAmount_parseAmount r11 rd1 rd2 h9
        · simp at h

/-- A successful `matchTail` yields amount strings that all parse. -/
theorem matchTail_amounts (l : List Char) (g rrp price : String) (dp : Option String)
    (h : matchTail l = some (g, rrp, price, dp)) :
    (parseAmount rrp.data).isSome = true ∧ (parseAmount price.data).isSome = true
    ∧ ∀ s, dp = some s → (parseAmount s.data).isSome = true := by
  simp only [matchTail] at h
  cases h1 : stripPre "Outlet ".data l with
  | none => rw [h1] at h; simp at h
  | some r1 =>
    rw [h1] at h
    simp only [Option.some_bind] at h
    by_cases hg1 : r1.takeWhile upperAlnum = []
    · rw [if_pos hg1] at h; simp at h
    · rw [if_neg hg1] at h
      cases h2 : stripPre " Stock".data (r1.dropWhile upperAlnum) with
      | none => rw [h2] at h; simp at h
      | some r3 =>
        rw [h2] at h
        simp only [Option.some_bind] at h
        by_cases hw1 : r3.takeWhile pySpace = []
        · rw [if_pos hw1] at h; simp at h
        · rw [if_neg hw1] at h
          cases h3 : expectChar '£' (r3.dropWhile pySpace) with
          | none => rw [h3] at h; simp at h
          | some r5 =>
            rw [h3] at h
            simp only [Option.some_bind] at h
            cases h4 : readAmount r5 with
            | none => rw [h4] at h; simp at h
            | some ra =>
              obtain ⟨ra1, ra2⟩ := ra
              rw [h4] at h
              simp only [Option.some_bind] at h
              by_cases hw2 : ra2.takeWhile pySpace = []
              · rw [if_pos hw2] at h; simp at h
              · rw [if_neg hw2] at h
                cases h5 : expectChar '£' (ra2.dropWhile pySpace) with
                | none => rw [h5] at h; simp at h
                | some r8 =>
                  rw [h5] at h
                  simp only [Option.some_bind] at h
                  cases h6 : readAmount r8 with
                  | none => rw [h6] at h; simp at h
                  | some rp =>
                    obtain ⟨rp1, rp2⟩ := rp
                    rw [h6] at h
                    simp only [Option.some_bind] at h
                    have hra := readAmount_parseAmount r5 ra1 ra2 h4
                    have hrpr := readAmount_parseAmount r8 rp1 rp2 h6
                    cases h7 : discTry rp2 with
                    | some d =>
                      rw [h7] at h
                      simp only [Option.some_inj, Prod.mk.injEq] at h
                      obtain ⟨hg, hrrp, hprice, hdp⟩ := h
                      subst hrrp; subst hprice; subst hdp
                      refine ⟨hra, hrpr, ?_⟩
                      intro s hs
                      obtain rfl := Option.some_inj.mp hs
                      exact discTry_amount rp2 d h7
                    | none =>
                      rw [h7] at h
                      by_cases hde : dollarEnd rp2 = true
                      · rw [if_pos hde] at h
                        simp only [Option.some_inj, Prod.mk.injEq] at h
                        obtain ⟨hg, hrrp, hprice, hdp⟩ := h
                        subst hrrp; subst hprice
                        refine ⟨hra, hrpr, ?_⟩
                        intro s hs
                        rw [← hdp] at hs
                        simp at hs
                      · rw [if_neg hde] at h
                        simp at h

/-- A successful pass of the lazy description loop contains a successful
`matchTail`. -/
theorem descLoop_tail (l acc : List Char) (ds g rrp price : String)
    (dp : Option String) (h : descLoop acc l = some (ds, g, rrp, price, dp)) :
    ∃ r, matchTail r = some (g, rrp, price, dp) := by
  induction l generalizing acc with
  | nil => simp [descLoop] at h
  | cons c rest ih =>
    simp only [descLoop] at h
    split at h
    · next tg trrp tprice tdp heq =>
      simp only [Option.some_inj, Prod.mk.injEq] at h
      obtain ⟨h0, h1, h2, h3, h4⟩ := h
      subst h1; subst h2; subst h3; subst h4
      simp only [descTry] at heq
      split at heq
      · simp at heq
      · exact ⟨_, heq⟩
    · split at h
      · exact ih _ h
      · simp at h

/-- A successful `tryFromK` contains a successful `matchTail`. -/
theorem tryFromK_tail (w r : List Char) (k : Nat) (ds g rrp price : String)
    (dp : Option String) (h : tryFromK w r k = some (ds, g, rrp, price, dp)) :
    ∃ q, matchTail q = some (g, rrp, price, dp) := by
  induction k with
  | zero => simp [tryFromK] at h
  | succ k ih =>
    simp only [tryFromK] at h
    split at h
    · next res heq =>
      obtain rfl := Option.some_inj.mp h
      split at heq
      · simp at heq
      · next c rest heq2 =>
        split at heq
        · exact descLoop_tail rest [c] ds g rrp price dp heq
        · simp at heq
    · exact ih h

/-- Every amount string captured by a successful product-row match
parses: the row grammar guarantees `float` succeeds on all three price
fields. -/
theorem productMatch_amounts (l : List Char) (raw : RawRow)
    (h : productMatch l = some raw) :
    (parseAmount raw.rrp.data).isSome = true
    ∧ (parseAmount raw.price.data).isSome = true
    ∧ ∀ s, raw.discounted_price = some s → (parseAmount s.data).isSome = true := by
  simp only [productMatch] at h
  split at h
  · simp at h
  · split at h
    · simp at h
    · split at h
      · next desc g rrp price d heq =>
        obtain rfl := (Option.some_inj.mp h).symm
        obtain ⟨q, hq⟩ := tryFromK_tail _ _ _ _ _ _ _ _ heq
        exact matchTail_amounts q g rrp price d hq
      · simp at h

/-- The normaliser succeeds on every raw row whose amounts parse and
whose rrp value is nonzero. -/
theorem normalizeRow_total (raw : RawRow) (v p : ℚ)
    (hra : parseAmount raw.rrp.data = some v) (hnz : v ≠ 0)
    (hrp : parseAmount raw.price.data = some p)
    (hd : ∀ s, raw.discounted_price = some s → (parseAmount s.data).isSome = true) :
    (normalizeRow raw).isSome = true := by
  obtain ⟨rid, rdesc, rgrade, rrrp, rprice, rdisc⟩ := raw
  cases rdisc with
  | some ds =>
    obtain ⟨dv, hdv⟩ := Option.isSome_iff_exists.mp (hd ds rfl)
    simp only [normalizeRow] at *
    rw [hra, hrp, hdv]
    simp only [Option.some_bind]
    rw [if_neg hnz]
    simp
  | none =>
    simp only [normalizeRow] at *
    rw [hra, hrp]
    simp only [Option.some_bind]
    rw [if_neg hnz]
    simp

/-- **C9** — the row grammar accepts `£0.00` as rrp, and on such a row
the normaliser (whose discount computation divides by rrp with no zero
guard) has no defined result — a `ZeroDivisionError` in the source; for
every matched row whose rrp value is nonzero the normaliser is total. -/
theorem rrp_zero_division (l : List Char) (raw : RawRow) (v : ℚ)
    (hm : productMatch l = some raw)
    (hv : parseAmount raw.rrp.data = some v) (hnz : v ≠ 0) :
    (normalizeRow raw).isSome = true
    ∧ productMatch "7 Foo Outlet B1 Stock £0.00 £0.00".data
        = some ⟨"7", "Foo", "Outlet B1 Stock", "0.00", "0.00", none⟩
    ∧ normalizeRow ⟨"7", "Foo", "Outlet B1 Stock", "0.00", "0.00", none⟩ = none := by
  refine ⟨?_, by decide, ?_⟩
  · obtain ⟨hrrp, hprice, hdisc⟩ := productMatch_amounts l raw hm
    obtain ⟨p, hp⟩ := Option.isSome_iff_exists.mp hprice
    exact normalizeRow_total raw v p hv hnz hp hdisc
  · have h0 : parseAmount "0.00".data = some 0 := by
      rw [parseAmount_eq "0.00".data 0 0 2 (by decide)]; norm_num
    simp [normalizeRow, h0]

/-- Witness for `rrp_zero_division` at a row with a positive rrp. -/
theorem rrp_zero_division_witness :
    (normalizeRow ⟨"5", "Foo", "Outlet B1 Stock", "100.00", "50.00", none⟩).isSome = true
    ∧ productMatch "7 Foo Outlet B1 Stock £0.00 £0.00".data
        = some ⟨"7", "Foo", "Outlet B1 Stock", "0.00", "0.00", none⟩
    ∧ normalizeRow ⟨"7", "Foo", "Outlet B1 Stock", "0.00", "0.00", none⟩ = none := by
  have h100 : parseAmount "100.00".data = some 100 := by
    rw [parseAmount_eq "100.00".data 100 0 2 (by decide)]; norm_num
  refine rrp_zero_division "5 Foo Outlet B1 Stock £100.00 £50.00".data
    ⟨"5", "Foo", "Outlet B1 Stock", "100.00", "50.00", none⟩ 100
    (by decide) h100 (by norm_num)

end MieleScrape
